import Mathlib

/-!
Shallow embedding of the WFQ scheduler from src/src/lib.rs.
Machine integers: u64 values are modelled as Nat reduced modulo 2^64 at
each arithmetic step the source performs on u64 (release-profile wrapping
semantics).  usize byte counters are modelled as Nat; their additions
cannot overflow for data resident in memory, while the subtractions the
source performs (which are program errors on underflow) are modelled as
checked operations returning an RtError, as are the
expect("unreachable") map lookups.
-/

namespace Wfq

/-- Capability of a payload type to report its byte length, mirroring the
Rust bound T: AsRef of bytes together with data_size() = len(). -/
class DataSize (T : Type) where
  dataSize : T → Nat

/-- Modulus of u64 arithmetic. -/
def u64Size : Nat := 2 ^ 64

/-- Mirror of struct Item with flow_key, weight (the u64 value carried by
the NonZeroU64), and opaque data. -/
structure Item (K T : Type) where
  flow_key : K
  weight : Nat
  data : T
deriving DecidableEq

/-- Mirror of Item::data_size. -/
def Item.data_size {K T : Type} [DataSize T] (it : Item K T) : Nat :=
  DataSize.dataSize it.data

/-- Mirror of struct QueueSize. -/
structure QueueSize where
  normal : Nat
  overflow : Nat
deriving DecidableEq

/-- Mirror of QueueSize::total. -/
def QueueSize.total (q : QueueSize) : Nat := q.normal + q.overflow

/-- Mirror of struct FlowState. -/
structure FlowState where
  queue_size : QueueSize
  last_virtual_finish_time : Nat
deriving DecidableEq

/-- Mirror of struct HeapItem: the stored item plus its arrival sequence
number and the virtual finish time assigned at admission.  The source's
OverflowHeapItem is a newtype over HeapItem and is modelled by using
HeapItem with the overflow comparison function. -/
structure HeapItem (K T : Type) where
  inner : Item K T
  seqno : Nat
  virtual_finish_time : Nat
deriving DecidableEq

/-- Mirror of struct WeightedFairQueue.  The two BinaryHeaps are modelled
as unordered lists together with a pop operation that extracts a maximal
element for the relevant order (Rust's BinaryHeap guarantees no more than
that on ties); the HashMap is modelled as an association list. -/
structure WeightedFairQueue (K T : Type) where
  items : List (HeapItem K T)
  overflow : List (HeapItem K T)
  flows : List (K × FlowState)
  queue_size : QueueSize
  max_normal_queue_size : Nat
  virtual_time : Nat
  seqno : Nat
deriving DecidableEq

/-- Mirror of WeightedFairQueue::new. -/
def WeightedFairQueue.new (K T : Type) (max_normal_queue_size : Nat) :
    WeightedFairQueue K T :=
  ⟨[], [], [], ⟨0, 0⟩, max_normal_queue_size, 0, 0⟩

/-- Runtime errors of dequeue: the two expect("unreachable") lookups and
the usize subtractions that would underflow (a program error in Rust:
panic in debug profile). -/
inductive RtError where
  | flowMissingAfterPop
  | flowNormalUnderflow
  | globalNormalUnderflow
  | flowMissingInSweep
  | flowOverflowUnderflow
  | globalOverflowUnderflow
deriving DecidableEq

section Ops

variable {K T : Type} [DecidableEq K] [DataSize T]

/-- HashMap::get on the association list: first entry with the key. -/
def lookupFlow (k : K) : List (K × FlowState) → Option FlowState
  | [] => none
  | (k', fl) :: rest => if k' = k then some fl else lookupFlow k rest

/-- HashMap::get_mut followed by a mutation: rewrite the first entry with
the key in place. -/
def updateFlow (k : K) (f : FlowState → FlowState) :
    List (K × FlowState) → List (K × FlowState)
  | [] => []
  | (k', fl) :: rest =>
      if k' = k then (k', f fl) :: rest else (k', fl) :: updateFlow k f rest

/-- HashMap::remove: drop the first entry with the key. -/
def removeFlow (k : K) : List (K × FlowState) → List (K × FlowState)
  | [] => []
  | (k', fl) :: rest =>
      if k' = k then rest else (k', fl) :: removeFlow k rest

/-- BinaryHeap::pop modelled on a list: extract the first element that is
maximal for the strict comparison better (better a b means a must be
popped strictly before b). -/
def popBest (better : HeapItem K T → HeapItem K T → Bool) :
    List (HeapItem K T) → Option (HeapItem K T × List (HeapItem K T))
  | [] => none
  | x :: xs =>
      match popBest better xs with
      | none => some (x, [])
      | some (y, ys) => if better y x then some (y, x :: ys) else some (x, xs)

/-- Primary-queue priority (impl Ord for HeapItem, reversed comparison on
virtual_finish_time, so the popped element has the least virtual finish
time). -/
def betterPrimary (a b : HeapItem K T) : Bool :=
  a.virtual_finish_time < b.virtual_finish_time

/-- Overflow-queue priority (impl Ord for OverflowHeapItem: greatest
weight first, ties broken by the reversed seqno comparison, i.e. the
earliest arrival first). -/
def betterOverflow (a b : HeapItem K T) : Bool :=
  b.inner.weight < a.inner.weight ∨
    (a.inner.weight = b.inner.weight ∧ a.seqno < b.seqno)

/-- The flow's last virtual finish time that enqueue starts from: the
stored value for a known key, else the current global virtual time (the
value a freshly created FlowState is initialised with by the source
before the addition). -/
def prevLastOf (s : WeightedFairQueue K T) (k : K) : Nat :=
  match lookupFlow k s.flows with
  | some fl => fl.last_virtual_finish_time
  | none => s.virtual_time

/-- The flow ledger after the source's insertion of a fresh FlowState
(last_virtual_finish_time = current virtual_time, zero bytes) for an
unseen key; unchanged for a known key. -/
def flows0Of (s : WeightedFairQueue K T) (it : Item K T) :
    List (K × FlowState) :=
  match lookupFlow it.flow_key s.flows with
  | some _ => s.flows
  | none => (it.flow_key, FlowState.mk ⟨0, 0⟩ s.virtual_time) :: s.flows

/-- Virtual finish time assigned to an item admitted in state s: the
flow's previous last finish time plus item_size * weight, with both the
multiplication and the addition performed in u64 arithmetic (reduced
modulo 2^64). -/
def newLastOf (s : WeightedFairQueue K T) (it : Item K T) : Nat :=
  (prevLastOf s it.flow_key + (it.data_size * it.weight) % u64Size) % u64Size

/-- Mirror of WeightedFairQueue::enqueue.  The source first inserts a
fresh FlowState for an unseen key, then adds item_size * weight (u64
arithmetic) to the flow's last virtual finish time, builds the heap
entry with the current seqno, and routes it by comparing primary bytes +
item size against max_normal_queue_size. -/
def enqueue (it : Item K T) (s : WeightedFairQueue K T) :
    WeightedFairQueue K T :=
  let sz := it.data_size
  let newLast := newLastOf s it
  let flows1 :=
    updateFlow it.flow_key
      (fun fl => { fl with last_virtual_finish_time := newLast })
      (flows0Of s it)
  let hi : HeapItem K T := ⟨it, s.seqno, newLast⟩
  if s.queue_size.normal + sz > s.max_normal_queue_size then
    { s with
      flows :=
        updateFlow it.flow_key
          (fun fl =>
            { fl with
              queue_size :=
                ⟨fl.queue_size.normal, fl.queue_size.overflow + sz⟩ })
          flows1
      queue_size := ⟨s.queue_size.normal, s.queue_size.overflow + sz⟩
      overflow := hi :: s.overflow
      seqno := (s.seqno + 1) % u64Size }
  else
    { s with
      flows :=
        updateFlow it.flow_key
          (fun fl =>
            { fl with
              queue_size :=
                ⟨fl.queue_size.normal + sz, fl.queue_size.overflow⟩ })
          flows1
      queue_size := ⟨s.queue_size.normal + sz, s.queue_size.overflow⟩
      items := hi :: s.items
      seqno := (s.seqno + 1) % u64Size }

/-- Promotion sweep of WeightedFairQueue::dequeue.  k is the flow key of
the item popped by this dequeue call: the source looks up
item.inner.flow_key() — the dequeued item's key, not the promoted item's
key — inside the loop.  fuel is the length of the overflow list at entry
(each iteration either removes one overflow element or stops). -/
def sweepGo (fuel : Nat) (k : K) (s : WeightedFairQueue K T) :
    Except RtError (WeightedFairQueue K T) :=
  match fuel with
  | 0 => .ok s
  | fuel + 1 =>
      match popBest betterOverflow s.overflow with
      | none => .ok s
      | some (next, rest) =>
          let sz := next.inner.data_size
          if s.queue_size.normal + sz > s.max_normal_queue_size then
            .ok { s with overflow := next :: rest }
          else
            match lookupFlow k s.flows with
            | none => .error .flowMissingInSweep
            | some fl =>
                if sz ≤ fl.queue_size.overflow then
                  if sz ≤ s.queue_size.overflow then
                    sweepGo fuel k
                      { s with
                        flows :=
                          updateFlow k
                            (fun fl0 =>
                              { fl0 with
                                queue_size :=
                                  ⟨fl0.queue_size.normal + sz,
                                    fl0.queue_size.overflow - sz⟩ })
                            s.flows
                        queue_size :=
                          ⟨s.queue_size.normal + sz,
                            s.queue_size.overflow - sz⟩
                        items := next :: s.items
                        overflow := rest }
                  else .error .globalOverflowUnderflow
                else .error .flowOverflowUnderflow

/-- State after the pop phase of dequeue, before the promotion sweep:
virtual time advanced to the popped item's virtual finish time, the
popped bytes taken off the global and per-flow primary counters, and the
flow removed from the ledger when its primary byte counter reaches zero
(the source checks only queue_size.normal here, not the overflow
bytes). -/
def flowsAfterPop (s : WeightedFairQueue K T) (item : HeapItem K T)
    (fl : FlowState) : List (K × FlowState) :=
  if fl.queue_size.normal - item.inner.data_size = 0 then
    removeFlow item.inner.flow_key s.flows
  else
    updateFlow item.inner.flow_key
      (fun fl0 =>
        { fl0 with
          queue_size :=
            ⟨fl.queue_size.normal - item.inner.data_size,
              fl0.queue_size.overflow⟩ })
      s.flows

def afterPop (s : WeightedFairQueue K T) (item : HeapItem K T)
    (rest : List (HeapItem K T)) (fl : FlowState) : WeightedFairQueue K T :=
  { s with
    items := rest
    flows := flowsAfterPop s item fl
    queue_size :=
      ⟨s.queue_size.normal - item.inner.data_size, s.queue_size.overflow⟩
    virtual_time := item.virtual_finish_time }

/-- Mirror of WeightedFairQueue::dequeue, returning the popped HeapItem
(so that the virtual finish time of the returned item is observable in
statements); the public dequeue projects to the inner Item. -/
def dequeueFull (s : WeightedFairQueue K T) :
    Except RtError (Option (HeapItem K T) × WeightedFairQueue K T) :=
  match popBest betterPrimary s.items with
  | none => .ok (none, s)
  | some (item, rest) =>
      let sz := item.inner.data_size
      if sz ≤ s.queue_size.normal then
        match lookupFlow item.inner.flow_key s.flows with
        | none => .error .flowMissingAfterPop
        | some fl =>
            if sz ≤ fl.queue_size.normal then
              let s1 := afterPop s item rest fl
              (sweepGo s1.overflow.length item.inner.flow_key s1).map
                (fun s2 => (some item, s2))
            else .error .flowNormalUnderflow
      else .error .globalNormalUnderflow

/-- Public dequeue: the source returns Some(item.inner). -/
def dequeue (s : WeightedFairQueue K T) :
    Except RtError (Option (Item K T) × WeightedFairQueue K T) :=
  (dequeueFull s).map (fun p => (p.1.map (fun h => h.inner), p.2))

/-- Total byte size of a list of heap entries. -/
def sumSizes (l : List (HeapItem K T)) : Nat :=
  (l.map (fun h => h.inner.data_size)).sum

/-- All items buffered in either heap, as a multiset of payload items. -/
def heapMS (s : WeightedFairQueue K T) : Multiset (Item K T) :=
  (((s.items ++ s.overflow).map (fun hi => hi.inner) : List (Item K T)) :
    Multiset (Item K T))

/-- Invariant maintained by ReachPrim traces: the overflow buffer is
empty, the virtual clock is below every pending virtual finish time,
every pending item's flow is in the ledger with a last finish time at or
after that item's, the ledger's last finish times are at or after the
clock, the per-flow primary byte counters match the pending items of the
flow and are positive, pending items have positive size, and ledger keys
are unique. -/
def InvP (s : WeightedFairQueue K T) : Prop :=
  s.overflow = [] ∧
  (∀ h ∈ s.items, s.virtual_time ≤ h.virtual_finish_time) ∧
  (∀ h ∈ s.items, ∃ fl, lookupFlow h.inner.flow_key s.flows = some fl ∧
      h.virtual_finish_time ≤ fl.last_virtual_finish_time) ∧
  (∀ k fl, lookupFlow k s.flows = some fl →
      s.virtual_time ≤ fl.last_virtual_finish_time) ∧
  (∀ k fl, lookupFlow k s.flows = some fl →
      fl.queue_size.normal =
        sumSizes (s.items.filter (fun h => h.inner.flow_key = k)) ∧
      0 < fl.queue_size.normal) ∧
  (∀ h ∈ s.items, 1 ≤ h.inner.data_size) ∧
  (s.flows.map Prod.fst).Nodup

/-- One scheduler call of a trace. -/
inductive Op (K T : Type) where
  | enq (it : Item K T)
  | deq
deriving DecidableEq

/-- Apply one call; a dequeue yields the popped heap entry (if any) as
trace output. -/
def applyOp (op : Op K T) (s : WeightedFairQueue K T) :
    Except RtError (WeightedFairQueue K T × List (HeapItem K T)) :=
  match op with
  | .enq it => .ok (enqueue it s, [])
  | .deq =>
      (dequeueFull s).map (fun p => (p.2, p.1.elim [] (fun h => [h])))

/-- Run a trace of calls, collecting the dequeued heap entries in order. -/
def runOps (ops : List (Op K T)) (s : WeightedFairQueue K T) :
    Except RtError (WeightedFairQueue K T × List (HeapItem K T)) :=
  match ops with
  | [] => .ok (s, [])
  | op :: rest =>
      match applyOp op s with
      | .error e => .error e
      | .ok (s', out) =>
          match runOps rest s' with
          | .error e => .error e
          | .ok (sf, outs) => .ok (sf, out ++ outs)

/-- Items handed to enqueue along a trace (this revision accepts every
enqueued item: there is no rejection path). -/
def enqueuedOf (ops : List (Op K T)) : List (Item K T) :=
  ops.filterMap (fun op => match op with | .enq it => some it | .deq => none)

/-- States reachable from a fresh scheduler by completed calls: enqueue
always completes; a dequeue that hits a runtime error does not complete
and yields no successor state. -/
inductive Reach (max : Nat) : WeightedFairQueue K T → Prop where
  | init : Reach max (WeightedFairQueue.new K T max)
  | enq (it : Item K T) (s : WeightedFairQueue K T) :
      Reach max s → Reach max (enqueue it s)
  | deq (s : WeightedFairQueue K T) (o : Option (HeapItem K T))
      (s' : WeightedFairQueue K T) :
      Reach max s → dequeueFull s = .ok (o, s') → Reach max s'

/-- Restricted reachability together with the list of virtual finish
times dequeued so far: every enqueued item respects the spec's stated
input contract (positive weight and positive byte size, as enforced by
NonZeroU64 and expected of payloads), is admitted directly into the
primary queue, and its virtual-finish-time computation does not wrap
modulo 2^64. -/
inductive ReachPrim (max : Nat) :
    WeightedFairQueue K T → List Nat → Prop where
  | init : ReachPrim max (WeightedFairQueue.new K T max) []
  | enq (it : Item K T) (s : WeightedFairQueue K T) (outs : List Nat) :
      ReachPrim max s outs →
      1 ≤ it.weight →
      1 ≤ it.data_size →
      s.queue_size.normal + it.data_size ≤ s.max_normal_queue_size →
      prevLastOf s it.flow_key + it.data_size * it.weight < u64Size →
      ReachPrim max (enqueue it s) outs
  | deqSome (s : WeightedFairQueue K T) (outs : List Nat)
      (h : HeapItem K T) (s' : WeightedFairQueue K T) :
      ReachPrim max s outs →
      dequeueFull s = .ok (some h, s') →
      ReachPrim max s' (outs ++ [h.virtual_finish_time])
  | deqNone (s : WeightedFairQueue K T) (outs : List Nat)
      (s' : WeightedFairQueue K T) :
      ReachPrim max s outs →
      dequeueFull s = .ok (none, s') →
      ReachPrim max s' outs

end Ops

/-! Concrete instantiation used by the scenario theorems: flow keys are
numbers, payloads are byte lists measured by their length. -/

instance : DataSize (List Nat) where
  dataSize := List.length

deriving instance DecidableEq for Except

/-- Concrete item: flow key k, weight w, payload of n zero bytes. -/
def itm (k w n : Nat) : Item Nat (List Nat) :=
  ⟨k, w, List.replicate n 0⟩

/-- A state with an empty primary queue and a non-empty overflow buffer
(as produced by enqueueing a 5-byte item for flow 1 past a full primary
queue and then draining the primary queue). -/
def c7state : WeightedFairQueue Nat (List Nat) :=
  ⟨[], [⟨itm 1 1 5, 0, 5⟩], [(1, ⟨⟨0, 5⟩, 5⟩)], ⟨0, 5⟩, 4, 0, 1⟩

/-! Lemmas about the flow-ledger association list. -/

section LedgerLemmas

variable {K T : Type} [DecidableEq K]

theorem lookupFlow_updateFlow_self (k : K) (f : FlowState → FlowState)
    (l : List (K × FlowState)) :
    lookupFlow k (updateFlow k f l) = (lookupFlow k l).map f := by
  induction l with
  | nil => simp [lookupFlow, updateFlow]
  | cons p rest ih =>
      obtain ⟨k', fl⟩ := p
      by_cases hk : k' = k
      · simp [lookupFlow, updateFlow, hk]
      · simp [lookupFlow, updateFlow, hk, ih]

theorem lookupFlow_updateFlow_ne (k k' : K) (hne : k' ≠ k)
    (f : FlowState → FlowState) (l : List (K × FlowState)) :
    lookupFlow k' (updateFlow k f l) = lookupFlow k' l := by
  induction l with
  | nil => simp [lookupFlow, updateFlow]
  | cons p rest ih =>
      obtain ⟨k'', fl⟩ := p
      by_cases hk : k'' = k
      · subst hk
        simp [lookupFlow, updateFlow, Ne.symm hne]
      · by_cases hk2 : k'' = k' <;>
          simp [lookupFlow, updateFlow, hk, hk2, hne, ih]

theorem lookupFlow_removeFlow_ne (k k' : K) (hne : k' ≠ k)
    (l : List (K × FlowState)) :
    lookupFlow k' (removeFlow k l) = lookupFlow k' l := by
  induction l with
  | nil => simp [lookupFlow, removeFlow]
  | cons p rest ih =>
      obtain ⟨k'', fl⟩ := p
      by_cases hk : k'' = k
      · subst hk
        simp [lookupFlow, removeFlow, Ne.symm hne]
      · by_cases hk2 : k'' = k' <;>
          simp [lookupFlow, removeFlow, hk, hk2, hne, ih]

theorem keys_updateFlow (k : K) (f : FlowState → FlowState)
    (l : List (K × FlowState)) :
    (updateFlow k f l).map Prod.fst = l.map Prod.fst := by
  induction l with
  | nil => simp [updateFlow]
  | cons p rest ih =>
      obtain ⟨k', fl⟩ := p
      by_cases hk : k' = k <;> simp [updateFlow, hk, ih]

theorem removeFlow_sublist (k : K) (l : List (K × FlowState)) :
    (removeFlow k l).Sublist l := by
  induction l with
  | nil => simp [removeFlow]
  | cons p rest ih =>
      obtain ⟨k', fl⟩ := p
      by_cases hk : k' = k
      · simp only [removeFlow, if_pos hk]
        exact List.sublist_cons_self (k', fl) rest
      · simpa [removeFlow, hk] using ih.cons₂ (k', fl)

theorem lookupFlow_eq_none_iff (k : K) (l : List (K × FlowState)) :
    lookupFlow k l = none ↔ k ∉ l.map Prod.fst := by
  induction l with
  | nil => simp [lookupFlow]
  | cons p rest ih =>
      obtain ⟨k', fl⟩ := p
      by_cases hk : k' = k
      · subst hk; simp [lookupFlow]
      · simp [lookupFlow, hk, ih, Ne.symm hk]

theorem lookupFlow_removeFlow_self (k : K) (l : List (K × FlowState))
    (hnd : (l.map Prod.fst).Nodup) :
    lookupFlow k (removeFlow k l) = none := by
  induction l with
  | nil => simp [lookupFlow, removeFlow]
  | cons p rest ih =>
      obtain ⟨k', fl⟩ := p
      simp only [List.map_cons, List.nodup_cons] at hnd
      by_cases hk : k' = k
      · subst hk
        simp only [removeFlow, if_pos rfl]
        rw [lookupFlow_eq_none_iff]
        exact hnd.1
      · simp [removeFlow, lookupFlow, hk, ih hnd.2]

theorem lookupFlow_mem (k : K) (fl : FlowState) (l : List (K × FlowState))
    (h : lookupFlow k l = some fl) : (k, fl) ∈ l := by
  induction l with
  | nil => simp [lookupFlow] at h
  | cons p rest ih =>
      obtain ⟨k', fl'⟩ := p
      by_cases hk : k' = k
      · subst hk
        simp [lookupFlow] at h
        subst h
        exact List.mem_cons_self _ _
      · simp only [lookupFlow, if_neg hk] at h
        exact List.mem_cons_of_mem _ (ih h)

end LedgerLemmas

/-! Lemmas about the heap pop operation. -/

section PopLemmas

variable {K T : Type}

theorem popBest_eq_none_iff (better : HeapItem K T → HeapItem K T → Bool)
    (l : List (HeapItem K T)) : popBest better l = none ↔ l = [] := by
  cases l with
  | nil => simp [popBest]
  | cons x xs =>
      simp only [popBest]
      cases h : popBest better xs with
      | none => simp
      | some p =>
          obtain ⟨y, ys⟩ := p
          by_cases hb : better y x <;> simp [hb]

theorem popBest_perm (better : HeapItem K T → HeapItem K T → Bool)
    (l r : List (HeapItem K T)) (c : HeapItem K T)
    (h : popBest better l = some (c, r)) : l.Perm (c :: r) := by
  induction l generalizing c r with
  | nil => simp [popBest] at h
  | cons x xs ih =>
      cases hx : popBest better xs with
      | none =>
          have hxs : xs = [] := (popBest_eq_none_iff better xs).mp hx
          subst hxs
          simp [popBest] at h
          obtain ⟨rfl, rfl⟩ := h
          exact List.Perm.refl _
      | some p =>
          obtain ⟨y, ys⟩ := p
          have hyys := ih ys y hx
          simp only [popBest, hx] at h
          by_cases hb : better y x
          · rw [if_pos hb] at h
            simp only [Option.some.injEq, Prod.mk.injEq] at h
            obtain ⟨rfl, rfl⟩ := h
            exact (hyys.cons x).trans (List.Perm.swap y x ys)
          · rw [if_neg hb] at h
            simp only [Option.some.injEq, Prod.mk.injEq] at h
            obtain ⟨rfl, rfl⟩ := h
            exact List.Perm.refl _

theorem popBest_mem (better : HeapItem K T → HeapItem K T → Bool)
    (l r : List (HeapItem K T)) (c : HeapItem K T)
    (h : popBest better l = some (c, r)) : c ∈ l :=
  (popBest_perm better l r c h).mem_iff.mpr (List.mem_cons_self _ _)

/-- The popped primary item has the least virtual finish time: nothing
remaining beats it. -/
theorem popBest_primary_min [DataSize T] (l r : List (HeapItem K T))
    (c : HeapItem K T) (h : popBest betterPrimary l = some (c, r)) :
    ∀ z ∈ r, c.virtual_finish_time ≤ z.virtual_finish_time := by
  induction l generalizing c r with
  | nil => simp [popBest] at h
  | cons x xs ih =>
      cases hx : popBest betterPrimary xs with
      | none =>
          have hxs : xs = [] := (popBest_eq_none_iff betterPrimary xs).mp hx
          subst hxs
          simp [popBest] at h
          obtain ⟨rfl, rfl⟩ := h
          simp
      | some p =>
          obtain ⟨y, ys⟩ := p
          have hmin := ih ys y hx
          have hperm := popBest_perm betterPrimary xs ys y hx
          simp only [popBest, hx] at h
          by_cases hb : betterPrimary y x
          · rw [if_pos hb] at h
            simp only [Option.some.injEq, Prod.mk.injEq] at h
            obtain ⟨rfl, rfl⟩ := h
            intro z hz
            rcases List.mem_cons.mp hz with rfl | hz
            · simp only [betterPrimary, decide_eq_true_eq] at hb
              omega
            · exact hmin z hz
          · rw [if_neg hb] at h
            simp only [Option.some.injEq, Prod.mk.injEq] at h
            obtain ⟨rfl, rfl⟩ := h
            intro z hz
            simp only [betterPrimary, decide_eq_true_eq] at hb
            have hz' : z = y ∨ z ∈ ys := List.mem_cons.mp (hperm.mem_iff.mp hz)
            rcases hz' with rfl | hz'
            · omega
            · have := hmin z hz'
              omega

end PopLemmas



/-! Lemmas about sizes, the sweep, and dequeue inversion. -/

section StepLemmas

variable {K T : Type} [DecidableEq K] [DataSize T]

theorem sumSizes_cons (a : HeapItem K T) (l : List (HeapItem K T)) :
    sumSizes (a :: l) = a.inner.data_size + sumSizes l := by
  simp [sumSizes]

theorem sumSizes_perm (l l' : List (HeapItem K T)) (h : l.Perm l') :
    sumSizes l = sumSizes l' :=
  List.Perm.sum_eq (h.map (fun hi => hi.inner.data_size))

/-- The promotion sweep only moves entries between the two heaps. -/
theorem sweepGo_perm (fuel : Nat) (k : K) (s s2 : WeightedFairQueue K T)
    (h : sweepGo fuel k s = .ok s2) :
    (s2.items ++ s2.overflow).Perm (s.items ++ s.overflow) := by
  induction fuel generalizing s with
  | zero =>
      simp only [sweepGo, Except.ok.injEq] at h
      subst h; exact List.Perm.refl _
  | succ fuel ih =>
      simp only [sweepGo] at h
      cases hpop : popBest betterOverflow s.overflow with
      | none =>
          simp only [hpop] at h
          simp only [Except.ok.injEq] at h
          subst h; exact List.Perm.refl _
      | some p =>
          obtain ⟨next, rest⟩ := p
          simp only [hpop] at h
          have hov : s.overflow.Perm (next :: rest) :=
            popBest_perm _ _ _ _ hpop
          by_cases hcap :
              s.queue_size.normal + next.inner.data_size >
                s.max_normal_queue_size
          · rw [if_pos hcap] at h
            simp only [Except.ok.injEq] at h
            subst h
            exact List.Perm.append_left s.items hov.symm
          · rw [if_neg hcap] at h
            cases hlk : lookupFlow k s.flows with
            | none => simp only [hlk] at h; exact absurd h (by simp)
            | some fl =>
                simp only [hlk] at h
                by_cases h1 : next.inner.data_size ≤ fl.queue_size.overflow
                · rw [if_pos h1] at h
                  by_cases h2 :
                      next.inner.data_size ≤ s.queue_size.overflow
                  · rw [if_pos h2] at h
                    have hrec := ih _ h
                    have h3 : ((next :: s.items) ++ rest).Perm
                        (s.items ++ (next :: rest)) := by
                      simp only [List.cons_append]
                      exact List.perm_middle.symm
                    exact hrec.trans
                      (h3.trans (List.Perm.append_left s.items hov.symm))
                  · rw [if_neg h2] at h; exact absurd h (by simp)
                · rw [if_neg h1] at h; exact absurd h (by simp)

/-- The promotion sweep keeps the primary byte counter equal to the
total size of the primary heap and below the configured bound, and does
not touch the bound itself. -/
theorem sweepGo_cap (fuel : Nat) (k : K) (s s2 : WeightedFairQueue K T)
    (h : sweepGo fuel k s = .ok s2)
    (hinv : s.queue_size.normal = sumSizes s.items ∧
      s.queue_size.normal ≤ s.max_normal_queue_size) :
    s2.queue_size.normal = sumSizes s2.items ∧
      s2.queue_size.normal ≤ s2.max_normal_queue_size ∧
      s2.max_normal_queue_size = s.max_normal_queue_size := by
  induction fuel generalizing s with
  | zero =>
      simp only [sweepGo, Except.ok.injEq] at h
      subst h; exact ⟨hinv.1, hinv.2, rfl⟩
  | succ fuel ih =>
      simp only [sweepGo] at h
      cases hpop : popBest betterOverflow s.overflow with
      | none =>
          simp only [hpop] at h
          simp only [Except.ok.injEq] at h
          subst h; exact ⟨hinv.1, hinv.2, rfl⟩
      | some p =>
          obtain ⟨next, rest⟩ := p
          simp only [hpop] at h
          by_cases hcap :
              s.queue_size.normal + next.inner.data_size >
                s.max_normal_queue_size
          · rw [if_pos hcap] at h
            simp only [Except.ok.injEq] at h
            subst h; exact ⟨hinv.1, hinv.2, rfl⟩
          · rw [if_neg hcap] at h
            cases hlk : lookupFlow k s.flows with
            | none => simp only [hlk] at h; exact absurd h (by simp)
            | some fl =>
                simp only [hlk] at h
                by_cases hc1 : next.inner.data_size ≤ fl.queue_size.overflow
                · rw [if_pos hc1] at h
                  by_cases hc2 :
                      next.inner.data_size ≤ s.queue_size.overflow
                  · rw [if_pos hc2] at h
                    have hA : s.queue_size.normal + next.inner.data_size =
                        sumSizes (next :: s.items) := by
                      simp only [sumSizes_cons]
                      omega
                    have hB : s.queue_size.normal + next.inner.data_size ≤
                        s.max_normal_queue_size := by omega
                    obtain ⟨a, b, c⟩ := ih _ h ⟨hA, hB⟩
                    exact ⟨a, b, c⟩
                  · rw [if_neg hc2] at h; exact absurd h (by simp)
                · rw [if_neg hc1] at h; exact absurd h (by simp)

/-- Inversion of a dequeue call that returned an item. -/
theorem dequeueFull_ok_some (s s' : WeightedFairQueue K T)
    (hi : HeapItem K T) (h : dequeueFull s = .ok (some hi, s')) :
    ∃ rest fl, popBest betterPrimary s.items = some (hi, rest) ∧
      hi.inner.data_size ≤ s.queue_size.normal ∧
      lookupFlow hi.inner.flow_key s.flows = some fl ∧
      hi.inner.data_size ≤ fl.queue_size.normal ∧
      sweepGo (afterPop s hi rest fl).overflow.length hi.inner.flow_key
        (afterPop s hi rest fl) = .ok s' := by
  simp only [dequeueFull] at h
  cases hpop : popBest betterPrimary s.items with
  | none => simp only [hpop] at h; exact absurd h (by simp)
  | some p =>
      obtain ⟨item, rest⟩ := p
      simp only [hpop] at h
      by_cases hg : item.inner.data_size ≤ s.queue_size.normal
      · rw [if_pos hg] at h
        cases hlk : lookupFlow item.inner.flow_key s.flows with
        | none => simp only [hlk] at h; exact absurd h (by simp)
        | some fl =>
            simp only [hlk] at h
            by_cases hf : item.inner.data_size ≤ fl.queue_size.normal
            · rw [if_pos hf] at h
              cases hsw : sweepGo (afterPop s item rest fl).overflow.length
                  item.inner.flow_key (afterPop s item rest fl) with
              | error e => simp only [hsw] at h; exact absurd h (by simp [Except.map])
              | ok s2 =>
                  simp only [hsw] at h
                  simp only [Except.map, Except.ok.injEq, Prod.mk.injEq,
                    Option.some.injEq] at h
                  obtain ⟨rfl, rfl⟩ := h
                  exact ⟨rest, fl, rfl, hg, hlk, hf, hsw⟩
            · rw [if_neg hf] at h; exact absurd h (by simp)
      · rw [if_neg hg] at h; exact absurd h (by simp)

/-- Inversion of a dequeue call that returned nothing: the primary queue
was empty and the state is untouched. -/
theorem dequeueFull_ok_none (s s' : WeightedFairQueue K T)
    (h : dequeueFull s = .ok (none, s')) : s.items = [] ∧ s' = s := by
  simp only [dequeueFull] at h
  cases hpop : popBest betterPrimary s.items with
  | none =>
      simp only [hpop] at h
      simp only [Except.ok.injEq, Prod.mk.injEq] at h
      exact ⟨(popBest_eq_none_iff _ _).mp hpop, h.2.symm⟩
  | some p =>
      obtain ⟨item, rest⟩ := p
      simp only [hpop] at h
      by_cases hg : item.inner.data_size ≤ s.queue_size.normal
      · rw [if_pos hg] at h
        cases hlk : lookupFlow item.inner.flow_key s.flows with
        | none => simp only [hlk] at h; exact absurd h (by simp)
        | some fl =>
            simp only [hlk] at h
            by_cases hf : item.inner.data_size ≤ fl.queue_size.normal
            · rw [if_pos hf] at h
              cases hsw : sweepGo (afterPop s item rest fl).overflow.length
                  item.inner.flow_key (afterPop s item rest fl) with
              | error e =>
                  simp only [hsw] at h; exact absurd h (by simp [Except.map])
              | ok s2 =>
                  simp only [hsw] at h
                  simp [Except.map] at h
            · rw [if_neg hf] at h; exact absurd h (by simp)
      · rw [if_neg hg] at h; exact absurd h (by simp)

/-- A dequeue on an empty primary queue returns nothing and leaves the
whole state (the overflow buffer included) unchanged. -/
theorem dequeueFull_of_items_nil (s : WeightedFairQueue K T)
    (h : s.items = []) : dequeueFull s = .ok (none, s) := by
  unfold dequeueFull
  rw [(popBest_eq_none_iff betterPrimary s.items).mpr h]

/-- Enqueue keeps the primary byte counter equal to the total size of
the primary heap and below the configured bound (admission to the
primary queue is guarded by exactly that bound), and does not touch the
bound. -/
theorem enqueue_cap (it : Item K T) (s : WeightedFairQueue K T)
    (hinv : s.queue_size.normal = sumSizes s.items ∧
      s.queue_size.normal ≤ s.max_normal_queue_size) :
    (enqueue it s).queue_size.normal = sumSizes (enqueue it s).items ∧
      (enqueue it s).queue_size.normal ≤
        (enqueue it s).max_normal_queue_size ∧
      (enqueue it s).max_normal_queue_size = s.max_normal_queue_size := by
  simp only [enqueue]
  by_cases hro :
      s.queue_size.normal + it.data_size > s.max_normal_queue_size
  · rw [if_pos hro]
    exact ⟨hinv.1, hinv.2, rfl⟩
  · rw [if_neg hro]
    refine ⟨?_, ?_, rfl⟩
    · simp only [sumSizes_cons]
      omega
    · simp only []
      omega

/-- Every reachable state satisfies the primary-capacity invariant. -/
theorem reach_cap (max : Nat) (s : WeightedFairQueue K T)
    (h : Reach max s) :
    s.queue_size.normal = sumSizes s.items ∧
      s.queue_size.normal ≤ s.max_normal_queue_size ∧
      s.max_normal_queue_size = max := by
  induction h with
  | init => simp [WeightedFairQueue.new, sumSizes]
  | enq it s hr ih =>
      obtain ⟨a, b, c⟩ := enqueue_cap it s ⟨ih.1, ih.2.1⟩
      exact ⟨a, b, c.trans ih.2.2⟩
  | deq s o s' hr hd ih =>
      cases o with
      | none =>
          obtain ⟨hnil, rfl⟩ := dequeueFull_ok_none s s' hd
          exact ih
      | some hi =>
          obtain ⟨rest, fl, hpop, hg, hlk, hf, hsw⟩ :=
            dequeueFull_ok_some s s' hi hd
          have hperm := popBest_perm betterPrimary s.items rest hi hpop
          have hsum : sumSizes s.items =
              hi.inner.data_size + sumSizes rest := by
            rw [sumSizes_perm _ _ hperm, sumSizes_cons]
          have hA : (afterPop s hi rest fl).queue_size.normal =
              sumSizes (afterPop s hi rest fl).items := by
            simp only [afterPop]
            omega
          have hB : (afterPop s hi rest fl).queue_size.normal ≤
              (afterPop s hi rest fl).max_normal_queue_size := by
            simp only [afterPop]
            omega
          obtain ⟨a, b, c⟩ := sweepGo_cap _ _ _ _ hsw ⟨hA, hB⟩
          refine ⟨a, b, ?_⟩
          rw [c]
          simpa [afterPop] using ih.2.2

theorem heapMS_of_perm (s s' : WeightedFairQueue K T)
    (h : (s'.items ++ s'.overflow).Perm (s.items ++ s.overflow)) :
    heapMS s' = heapMS s :=
  Multiset.coe_eq_coe.mpr (h.map (fun hi => hi.inner))

/-- Enqueue adds exactly the admitted item to the buffered multiset. -/
theorem enqueue_heapMS (it : Item K T) (s : WeightedFairQueue K T) :
    heapMS (enqueue it s) = it ::ₘ heapMS s := by
  simp only [enqueue, heapMS]
  by_cases hro :
      s.queue_size.normal + it.data_size > s.max_normal_queue_size
  · rw [if_pos hro]
    have hperm : (s.items ++
        ((⟨it, s.seqno, newLastOf s it⟩ : HeapItem K T) :: s.overflow)).Perm
        ((⟨it, s.seqno, newLastOf s it⟩ : HeapItem K T) ::
          (s.items ++ s.overflow)) :=
      List.perm_middle
    have hq := Multiset.coe_eq_coe.mpr (hperm.map (fun hi => hi.inner))
    simpa [Multiset.cons_coe] using hq
  · rw [if_neg hro]
    simp [Multiset.cons_coe]

/-- A dequeue that returned an item removes exactly that item from the
buffered multiset (the sweep only moves entries between the heaps). -/
theorem dequeue_heapMS (s s' : WeightedFairQueue K T) (hi : HeapItem K T)
    (h : dequeueFull s = .ok (some hi, s')) :
    heapMS s = hi.inner ::ₘ heapMS s' := by
  obtain ⟨rest, fl, hpop, hg, hlk, hf, hsw⟩ := dequeueFull_ok_some s s' hi h
  have hsw' := sweepGo_perm _ _ _ _ hsw
  have hafter : ((afterPop s hi rest fl).items ++
      (afterPop s hi rest fl).overflow) = rest ++ s.overflow := rfl
  rw [hafter] at hsw'
  have hitems := popBest_perm betterPrimary s.items rest hi hpop
  have hall : (s.items ++ s.overflow).Perm (hi :: (rest ++ s.overflow)) := by
    have := hitems.append_right s.overflow
    simpa using this
  have h1 : heapMS s =
      (((hi :: (rest ++ s.overflow)).map (fun x => x.inner) :
        List (Item K T)) : Multiset (Item K T)) :=
    Multiset.coe_eq_coe.mpr (hall.map _)
  have h2 : heapMS s' =
      (((rest ++ s.overflow).map (fun x => x.inner) : List (Item K T)) :
        Multiset (Item K T)) :=
    Multiset.coe_eq_coe.mpr (hsw'.map _)
  rw [h1, h2]
  simp [Multiset.cons_coe]

/-- Along any successfully completed trace, the buffered multiset plus
the dequeued items equals the starting buffered multiset plus the
enqueued items. -/
theorem runOps_conserve (ops : List (Op K T))
    (s sf : WeightedFairQueue K T) (outs : List (HeapItem K T))
    (h : runOps ops s = .ok (sf, outs)) :
    heapMS sf + ((outs.map (fun hi => hi.inner) : List (Item K T)) :
        Multiset (Item K T)) =
      heapMS s + ((enqueuedOf ops : List (Item K T)) :
        Multiset (Item K T)) := by
  induction ops generalizing s outs with
  | nil =>
      simp only [runOps, Except.ok.injEq, Prod.mk.injEq] at h
      obtain ⟨rfl, rfl⟩ := h
      simp [enqueuedOf]
  | cons op rest ih =>
      simp only [runOps] at h
      cases op with
      | enq it =>
          simp only [applyOp] at h
          cases hrun : runOps rest (enqueue it s) with
          | error e => rw [hrun] at h; exact absurd h (by simp)
          | ok p =>
              obtain ⟨sf', outs'⟩ := p
              rw [hrun] at h
              simp only [Except.ok.injEq, Prod.mk.injEq, List.nil_append] at h
              obtain ⟨rfl, rfl⟩ := h
              have hih := ih _ _ hrun
              rw [enqueue_heapMS] at hih
              have henq : enqueuedOf (Op.enq it :: rest) =
                  it :: enqueuedOf rest := by simp [enqueuedOf]
              rw [henq, hih]
              rw [← Multiset.cons_coe, Multiset.add_cons,
                Multiset.cons_add]
      | deq =>
          simp only [applyOp] at h
          cases hd : dequeueFull s with
          | error e => rw [hd] at h; exact absurd h (by simp [Except.map])
          | ok p =>
              obtain ⟨o, s1⟩ := p
              rw [hd] at h
              simp only [Except.map] at h
              have henq : enqueuedOf (Op.deq :: rest) = enqueuedOf rest := by
                simp [enqueuedOf]
              cases o with
              | none =>
                  simp only [Option.elim] at h
                  cases hrun : runOps rest s1 with
                  | error e => rw [hrun] at h; exact absurd h (by simp)
                  | ok p' =>
                      obtain ⟨sf', outs'⟩ := p'
                      rw [hrun] at h
                      simp only [Except.ok.injEq, Prod.mk.injEq,
                        List.nil_append] at h
                      obtain ⟨rfl, rfl⟩ := h
                      obtain ⟨hnil, rfl⟩ := dequeueFull_ok_none s s1 hd
                      rw [henq]
                      exact ih _ _ hrun
              | some hi =>
                  simp only [Option.elim] at h
                  cases hrun : runOps rest s1 with
                  | error e => rw [hrun] at h; exact absurd h (by simp)
                  | ok p' =>
                      obtain ⟨sf', outs'⟩ := p'
                      rw [hrun] at h
                      simp only [Except.ok.injEq, Prod.mk.injEq] at h
                      obtain ⟨rfl, rfl⟩ := h
                      have hih := ih _ _ hrun
                      have hstep := dequeue_heapMS s s1 hi hd
                      rw [henq, hstep]
                      simp only [List.map_cons, List.singleton_append,
                        Multiset.cons_add]
                      rw [← Multiset.cons_coe, Multiset.add_cons, hih]

theorem prevLastOf_some (s : WeightedFairQueue K T) (k : K)
    (fl : FlowState) (hlk : lookupFlow k s.flows = some fl) :
    prevLastOf s k = fl.last_virtual_finish_time := by
  unfold prevLastOf
  rw [hlk]

theorem prevLastOf_none (s : WeightedFairQueue K T) (k : K)
    (hlk : lookupFlow k s.flows = none) :
    prevLastOf s k = s.virtual_time := by
  unfold prevLastOf
  rw [hlk]

/-- When the exact virtual-finish-time sum stays below 2^64, the u64
computation coincides with it. -/
theorem newLastOf_no_wrap (s : WeightedFairQueue K T) (it : Item K T)
    (h : prevLastOf s it.flow_key + it.data_size * it.weight < u64Size) :
    newLastOf s it = prevLastOf s it.flow_key + it.data_size * it.weight := by
  unfold newLastOf
  have h1 : it.data_size * it.weight < u64Size := by omega
  rw [Nat.mod_eq_of_lt h1, Nat.mod_eq_of_lt h]

theorem lookupFlow_flows0_self (s : WeightedFairQueue K T) (it : Item K T) :
    lookupFlow it.flow_key (flows0Of s it) =
      some (match lookupFlow it.flow_key s.flows with
            | some fl => fl
            | none => FlowState.mk ⟨0, 0⟩ s.virtual_time) := by
  unfold flows0Of
  cases hlk : lookupFlow it.flow_key s.flows with
  | some fl => simp [hlk]
  | none => simp [lookupFlow, hlk]

theorem lookupFlow_flows0_ne (s : WeightedFairQueue K T) (it : Item K T)
    (k' : K) (h : k' ≠ it.flow_key) :
    lookupFlow k' (flows0Of s it) = lookupFlow k' s.flows := by
  unfold flows0Of
  cases hlk : lookupFlow it.flow_key s.flows with
  | some fl => rfl
  | none => simp [lookupFlow, Ne.symm h]

/-- Explicit form of an enqueue admitted to the primary queue. -/
theorem enqueue_primary_eq (it : Item K T) (s : WeightedFairQueue K T)
    (hadm : s.queue_size.normal + it.data_size ≤ s.max_normal_queue_size) :
    enqueue it s =
      { s with
        flows :=
          updateFlow it.flow_key
            (fun fl =>
              { fl with
                queue_size :=
                  ⟨fl.queue_size.normal + it.data_size,
                    fl.queue_size.overflow⟩ })
            (updateFlow it.flow_key
              (fun fl =>
                { fl with last_virtual_finish_time := newLastOf s it })
              (flows0Of s it))
        queue_size :=
          ⟨s.queue_size.normal + it.data_size, s.queue_size.overflow⟩
        items := ⟨it, s.seqno, newLastOf s it⟩ :: s.items
        seqno := (s.seqno + 1) % u64Size } := by
  simp only [enqueue]
  rw [if_neg (by omega)]

theorem exists_mem_of_sumSizes_pos (l : List (HeapItem K T))
    (h : 0 < sumSizes l) : ∃ x, x ∈ l := by
  cases l with
  | nil => simp [sumSizes] at h
  | cons x xs => exact ⟨x, List.mem_cons_self _ _⟩

theorem size_le_sumSizes (l : List (HeapItem K T)) (x : HeapItem K T)
    (hx : x ∈ l) : x.inner.data_size ≤ sumSizes l := by
  induction l with
  | nil => simp at hx
  | cons a as ih =>
      rcases List.mem_cons.mp hx with rfl | hx
      · simp [sumSizes_cons]
      · have := ih hx
        simp [sumSizes_cons]
        omega

/-- A successful item-returning dequeue from a state with an empty
overflow buffer is exactly the pop phase: the sweep does nothing. -/
theorem dequeueFull_primaryOnly (s s' : WeightedFairQueue K T)
    (hi : HeapItem K T) (hov : s.overflow = [])
    (h : dequeueFull s = .ok (some hi, s')) :
    ∃ rest fl, popBest betterPrimary s.items = some (hi, rest) ∧
      lookupFlow hi.inner.flow_key s.flows = some fl ∧
      hi.inner.data_size ≤ s.queue_size.normal ∧
      hi.inner.data_size ≤ fl.queue_size.normal ∧
      s' = afterPop s hi rest fl := by
  obtain ⟨rest, fl, hpop, hg, hlk, hf, hsw⟩ := dequeueFull_ok_some s s' hi h
  refine ⟨rest, fl, hpop, hlk, hg, hf, ?_⟩
  have hlen : (afterPop s hi rest fl).overflow.length = 0 := by
    simp [afterPop, hov]
  rw [hlen] at hsw
  simp only [sweepGo, Except.ok.injEq] at hsw
  exact hsw.symm

/-- The invariant is preserved by a contract-respecting enqueue admitted
to the primary queue whose pricing does not wrap. -/
theorem invP_enqueue (it : Item K T) (s : WeightedFairQueue K T)
    (hI : InvP s) (hsz : 1 ≤ it.data_size)
    (hadm : s.queue_size.normal + it.data_size ≤ s.max_normal_queue_size)
    (hnw : prevLastOf s it.flow_key + it.data_size * it.weight < u64Size) :
    InvP (enqueue it s) := by
  obtain ⟨hov, hvt, hfl, hlast, hacct, hpos, hnd⟩ := hI
  rw [enqueue_primary_eq it s hadm]
  have hNL := newLastOf_no_wrap s it hnw
  have hprev_ge : s.virtual_time ≤ prevLastOf s it.flow_key := by
    cases hlk : lookupFlow it.flow_key s.flows with
    | some fl =>
        rw [prevLastOf_some s _ fl hlk]
        exact hlast _ _ hlk
    | none => rw [prevLastOf_none s _ hlk]
  have hkey :
      lookupFlow it.flow_key
        (updateFlow it.flow_key
          (fun fl =>
            { fl with
              queue_size :=
                ⟨fl.queue_size.normal + it.data_size,
                  fl.queue_size.overflow⟩ })
          (updateFlow it.flow_key
            (fun fl =>
              { fl with last_virtual_finish_time := newLastOf s it })
            (flows0Of s it))) =
        some
          ⟨⟨(match lookupFlow it.flow_key s.flows with
              | some fl => fl
              | none =>
                  FlowState.mk ⟨0, 0⟩
                    s.virtual_time).queue_size.normal + it.data_size,
            (match lookupFlow it.flow_key s.flows with
              | some fl => fl
              | none =>
                  FlowState.mk ⟨0, 0⟩
                    s.virtual_time).queue_size.overflow⟩,
            newLastOf s it⟩ := by
    rw [lookupFlow_updateFlow_self, lookupFlow_updateFlow_self,
      lookupFlow_flows0_self]
    rfl
  have hother : ∀ k', k' ≠ it.flow_key →
      lookupFlow k'
        (updateFlow it.flow_key
          (fun fl =>
            { fl with
              queue_size :=
                ⟨fl.queue_size.normal + it.data_size,
                  fl.queue_size.overflow⟩ })
          (updateFlow it.flow_key
            (fun fl =>
              { fl with last_virtual_finish_time := newLastOf s it })
            (flows0Of s it))) = lookupFlow k' s.flows := by
    intro k' hk'
    rw [lookupFlow_updateFlow_ne _ _ hk', lookupFlow_updateFlow_ne _ _ hk',
      lookupFlow_flows0_ne _ _ _ hk']
  refine ⟨hov, ?_, ?_, ?_, ?_, ?_, ?_⟩
  · intro h2 hh2
    rcases List.mem_cons.mp hh2 with rfl | hh2
    · simp only []
      omega
    · exact hvt h2 hh2
  · intro h2 hh2
    rcases List.mem_cons.mp hh2 with rfl | hh2
    · exact ⟨_, hkey, le_refl _⟩
    · by_cases hk2 : h2.inner.flow_key = it.flow_key
      · rw [hk2]
        refine ⟨_, hkey, ?_⟩
        obtain ⟨fl2, hfl2, hle2⟩ := hfl h2 hh2
        rw [hk2] at hfl2
        have hplast : prevLastOf s it.flow_key =
            fl2.last_virtual_finish_time :=
          prevLastOf_some s _ fl2 hfl2
        show h2.virtual_finish_time ≤ newLastOf s it
        omega
      · obtain ⟨fl2, hfl2, hle2⟩ := hfl h2 hh2
        refine ⟨fl2, ?_, hle2⟩
        rw [hother _ hk2]
        exact hfl2
  · intro k' fl' hk'
    by_cases hk2 : k' = it.flow_key
    · subst hk2
      rw [hkey] at hk'
      simp only [Option.some.injEq] at hk'
      subst hk'
      simp only []
      omega
    · rw [hother _ hk2] at hk'
      exact hlast _ _ hk'
  · intro k' fl' hk'
    by_cases hk2 : k' = it.flow_key
    · subst hk2
      rw [hkey] at hk'
      simp only [Option.some.injEq] at hk'
      subst hk'
      have hfilter :
          (⟨it, s.seqno, newLastOf s it⟩ :: s.items).filter
              (fun h => h.inner.flow_key = it.flow_key) =
            ⟨it, s.seqno, newLastOf s it⟩ ::
              s.items.filter (fun h => h.inner.flow_key = it.flow_key) := by
        simp [List.filter]
      rw [hfilter, sumSizes_cons]
      cases hlk : lookupFlow it.flow_key s.flows with
      | some fl =>
          obtain ⟨ha, hb⟩ := hacct _ _ hlk
          constructor
          · simp only []
            omega
          · simp only []
            omega
      | none =>
          have hempty :
              s.items.filter (fun h => h.inner.flow_key = it.flow_key) =
                [] := by
            rw [List.filter_eq_nil]
            intro h2 hh2
            obtain ⟨fl2, hfl2, _⟩ := hfl h2 hh2
            simp only [decide_eq_true_eq]
            intro hk3
            rw [hk3, hlk] at hfl2
            exact absurd hfl2 (by simp)
          rw [hempty]
          simp only [sumSizes, List.map_nil, List.sum_nil]
          omega
    · rw [hother _ hk2] at hk'
      obtain ⟨ha, hb⟩ := hacct _ _ hk'
      have hfilter :
          (⟨it, s.seqno, newLastOf s it⟩ :: s.items).filter
              (fun h => h.inner.flow_key = k') =
            s.items.filter (fun h => h.inner.flow_key = k') := by
        simp [List.filter, Ne.symm hk2]
      rw [hfilter]
      exact ⟨ha, hb⟩
  · intro h2 hh2
    rcases List.mem_cons.mp hh2 with rfl | hh2
    · exact hsz
    · exact hpos h2 hh2
  · rw [keys_updateFlow, keys_updateFlow]
    unfold flows0Of
    cases hlk : lookupFlow it.flow_key s.flows with
    | some fl => exact hnd
    | none =>
        simp only [List.map_cons]
        exact List.Nodup.cons
          ((lookupFlow_eq_none_iff _ _).mp hlk) hnd

/-- The invariant is preserved by a successful item-returning dequeue,
which moreover advances the clock to the popped virtual finish time,
itself at or above the previous clock and below every remaining pending
virtual finish time. -/
theorem invP_dequeue_some (s s' : WeightedFairQueue K T)
    (hi : HeapItem K T) (hI : InvP s)
    (h : dequeueFull s = .ok (some hi, s')) :
    InvP s' ∧ s.virtual_time ≤ hi.virtual_finish_time ∧
      s'.virtual_time = hi.virtual_finish_time ∧
      ∀ h2 ∈ s'.items,
        hi.virtual_finish_time ≤ h2.virtual_finish_time := by
  obtain ⟨hov, hvt, hfl, hlast, hacct, hpos, hnd⟩ := hI
  obtain ⟨rest, fl, hpop, hlk, hg, hf, rfl⟩ :=
    dequeueFull_primaryOnly s s' hi hov h
  have hperm := popBest_perm betterPrimary s.items rest hi hpop
  have hmin := popBest_primary_min s.items rest hi hpop
  have hhi_mem : hi ∈ s.items :=
    hperm.mem_iff.mpr (List.mem_cons_self _ _)
  obtain ⟨hacck, hposk⟩ := hacct hi.inner.flow_key fl hlk
  have hfilk : (s.items.filter
      (fun h2 => h2.inner.flow_key = hi.inner.flow_key)).Perm
      (hi :: rest.filter
        (fun h2 => h2.inner.flow_key = hi.inner.flow_key)) := by
    have hp := hperm.filter
      (fun h2 => decide (h2.inner.flow_key = hi.inner.flow_key))
    simpa [List.filter] using hp
  have hsum : fl.queue_size.normal = hi.inner.data_size +
      sumSizes (rest.filter
        (fun h2 => h2.inner.flow_key = hi.inner.flow_key)) := by
    rw [hacck, sumSizes_perm _ _ hfilk, sumSizes_cons]
  have hfil_ne : ∀ k', k' ≠ hi.inner.flow_key →
      (s.items.filter (fun h2 => h2.inner.flow_key = k')).Perm
        (rest.filter (fun h2 => h2.inner.flow_key = k')) := by
    intro k' hk'
    have hp := hperm.filter (fun h2 => decide (h2.inner.flow_key = k'))
    simpa [List.filter, Ne.symm hk'] using hp
  have hmem_rest : ∀ h2 ∈ s.items, h2.inner.flow_key ≠ hi.inner.flow_key →
      h2 ∈ rest := by
    intro h2 hh2 hk2
    rcases List.mem_cons.mp (hperm.mem_iff.mp hh2) with rfl | hr
    · exact absurd rfl hk2
    · exact hr
  refine ⟨⟨hov, hmin, ?_, ?_, ?_, ?_, ?_⟩, hvt hi hhi_mem, rfl, hmin⟩
  · -- pending items still have a ledger entry bounding their finish time
    intro h2 hh2
    have hh2s : h2 ∈ s.items :=
      hperm.mem_iff.mpr (List.mem_cons_of_mem _ hh2)
    by_cases hk2 : h2.inner.flow_key = hi.inner.flow_key
    · by_cases hrem : fl.queue_size.normal - hi.inner.data_size = 0
      · exfalso
        have hmemf : h2 ∈ rest.filter
            (fun h3 => h3.inner.flow_key = hi.inner.flow_key) := by
          rw [List.mem_filter]
          exact ⟨hh2, by simp [hk2]⟩
        have hle := size_le_sumSizes _ _ hmemf
        have hsz1 := hpos h2 hh2s
        omega
      · refine ⟨⟨⟨fl.queue_size.normal - hi.inner.data_size,
          fl.queue_size.overflow⟩, fl.last_virtual_finish_time⟩, ?_, ?_⟩
        · show lookupFlow h2.inner.flow_key (flowsAfterPop s hi fl) = _
          unfold flowsAfterPop
          rw [if_neg hrem, hk2, lookupFlow_updateFlow_self, hlk]
          rfl
        · obtain ⟨fl3, hfl3, hle3⟩ := hfl h2 hh2s
          rw [hk2, hlk] at hfl3
          simp only [Option.some.injEq] at hfl3
          subst hfl3
          exact hle3
    · obtain ⟨fl3, hfl3, hle3⟩ := hfl h2 hh2s
      refine ⟨fl3, ?_, hle3⟩
      show lookupFlow h2.inner.flow_key (flowsAfterPop s hi fl) = _
      unfold flowsAfterPop
      by_cases hrem : fl.queue_size.normal - hi.inner.data_size = 0
      · rw [if_pos hrem, lookupFlow_removeFlow_ne _ _ hk2]
        exact hfl3
      · rw [if_neg hrem, lookupFlow_updateFlow_ne _ _ hk2]
        exact hfl3
  · -- ledger finish times at or after the new clock
    intro k' fl' hk'
    replace hk' : lookupFlow k' (flowsAfterPop s hi fl) = some fl' := hk'
    unfold flowsAfterPop at hk'
    show hi.virtual_finish_time ≤ fl'.last_virtual_finish_time
    by_cases hk2 : k' = hi.inner.flow_key
    · subst hk2
      by_cases hrem : fl.queue_size.normal - hi.inner.data_size = 0
      · rw [if_pos hrem, lookupFlow_removeFlow_self _ _ hnd] at hk'
        exact absurd hk' (by simp)
      · rw [if_neg hrem, lookupFlow_updateFlow_self, hlk] at hk'
        simp only [Option.map_some', Option.some.injEq] at hk'
        subst hk'
        show hi.virtual_finish_time ≤ fl.last_virtual_finish_time
        have hS : 0 < sumSizes (rest.filter
            (fun h2 => h2.inner.flow_key = hi.inner.flow_key)) := by omega
        obtain ⟨h2, hh2f⟩ := exists_mem_of_sumSizes_pos _ hS
        obtain ⟨hh2, hp2⟩ := List.mem_filter.mp hh2f
        simp only [decide_eq_true_eq] at hp2
        have h1 := hmin h2 hh2
        obtain ⟨fl3, hfl3, hle3⟩ := hfl h2
          (hperm.mem_iff.mpr (List.mem_cons_of_mem _ hh2))
        rw [hp2, hlk] at hfl3
        simp only [Option.some.injEq] at hfl3
        subst hfl3
        omega
    · have hk'' : lookupFlow k' s.flows = some fl' := by
        by_cases hrem : fl.queue_size.normal - hi.inner.data_size = 0
        · rwa [if_pos hrem, lookupFlow_removeFlow_ne _ _ hk2] at hk'
        · rwa [if_neg hrem, lookupFlow_updateFlow_ne _ _ hk2] at hk'
      obtain ⟨ha, hb⟩ := hacct _ _ hk''
      have hS : 0 < sumSizes (s.items.filter
          (fun h2 => h2.inner.flow_key = k')) := by omega
      obtain ⟨h2, hh2f⟩ := exists_mem_of_sumSizes_pos _ hS
      obtain ⟨hh2, hp2⟩ := List.mem_filter.mp hh2f
      simp only [decide_eq_true_eq] at hp2
      have hh2r : h2 ∈ rest := by
        refine hmem_rest h2 hh2 ?_
        rw [hp2]
        exact hk2
      have h1 := hmin h2 hh2r
      obtain ⟨fl3, hfl3, hle3⟩ := hfl h2 hh2
      rw [hp2, hk''] at hfl3
      simp only [Option.some.injEq] at hfl3
      subst hfl3
      omega
  · -- per-flow accounting
    intro k' fl' hk'
    replace hk' : lookupFlow k' (flowsAfterPop s hi fl) = some fl' := hk'
    unfold flowsAfterPop at hk'
    show fl'.queue_size.normal =
        sumSizes (rest.filter (fun h2 => h2.inner.flow_key = k')) ∧
      0 < fl'.queue_size.normal
    by_cases hk2 : k' = hi.inner.flow_key
    · subst hk2
      by_cases hrem : fl.queue_size.normal - hi.inner.data_size = 0
      · rw [if_pos hrem, lookupFlow_removeFlow_self _ _ hnd] at hk'
        exact absurd hk' (by simp)
      · rw [if_neg hrem, lookupFlow_updateFlow_self, hlk] at hk'
        simp only [Option.map_some', Option.some.injEq] at hk'
        subst hk'
        constructor
        · simp only []
          omega
        · simp only []
          omega
    · have hk'' : lookupFlow k' s.flows = some fl' := by
        by_cases hrem : fl.queue_size.normal - hi.inner.data_size = 0
        · rwa [if_pos hrem, lookupFlow_removeFlow_ne _ _ hk2] at hk'
        · rwa [if_neg hrem, lookupFlow_updateFlow_ne _ _ hk2] at hk'
      obtain ⟨ha, hb⟩ := hacct _ _ hk''
      have hfeq := sumSizes_perm _ _ (hfil_ne k' hk2)
      exact ⟨by rw [ha, hfeq], hb⟩
  · -- sizes of remaining pending items
    intro h2 hh2
    exact hpos h2 (hperm.mem_iff.mpr (List.mem_cons_of_mem _ hh2))
  · -- ledger keys stay unique
    show ((flowsAfterPop s hi fl).map Prod.fst).Nodup
    unfold flowsAfterPop
    by_cases hrem : fl.queue_size.normal - hi.inner.data_size = 0
    · rw [if_pos hrem]
      exact hnd.sublist
        ((removeFlow_sublist hi.inner.flow_key s.flows).map Prod.fst)
    · rw [if_neg hrem, keys_updateFlow]
      exact hnd

/-- Along restricted traces the invariant holds, the dequeued virtual
finish times are pairwise non-decreasing, and all of them are at or
below the current clock. -/
theorem reachPrim_inv (max : Nat) (s : WeightedFairQueue K T)
    (outs : List Nat) (h : ReachPrim max s outs) :
    InvP s ∧ outs.Pairwise (· ≤ ·) ∧ ∀ x ∈ outs, x ≤ s.virtual_time := by
  induction h with
  | init =>
      refine ⟨⟨rfl, ?_, ?_, ?_, ?_, ?_, ?_⟩, ?_, ?_⟩ <;>
        simp [WeightedFairQueue.new, lookupFlow]
  | enq it s outs hr hw hsz hadm hnw ih =>
      obtain ⟨hI, hp, hle⟩ := ih
      refine ⟨invP_enqueue it s hI hsz hadm hnw, hp, ?_⟩
      intro x hx
      have hvt : (enqueue it s).virtual_time = s.virtual_time := by
        rw [enqueue_primary_eq it s hadm]
      rw [hvt]
      exact hle x hx
  | deqSome s outs hi s' hr hd ih =>
      obtain ⟨hI, hp, hle⟩ := ih
      obtain ⟨hI', hvm, hvt', hmin⟩ := invP_dequeue_some s s' hi hI hd
      refine ⟨hI', ?_, ?_⟩
      · refine List.pairwise_append.mpr
          ⟨hp, List.pairwise_singleton _ _, ?_⟩
        intro x hx y hy
        simp only [List.mem_singleton] at hy
        subst hy
        exact le_trans (hle x hx) hvm
      · intro x hx
        rcases List.mem_append.mp hx with hx | hx
        · rw [hvt']
          exact le_trans (hle x hx) hvm
        · simp only [List.mem_singleton] at hx
          subst hx
          rw [hvt']
  | deqNone s outs s' hr hd ih =>
      obtain ⟨hnil, rfl⟩ := dequeueFull_ok_none s s' hd
      exact ih

/-- After any enqueue the item's flow is in the ledger with last
virtual finish time newLastOf. -/
theorem lookupFlow_enqueue_self (it : Item K T) (s : WeightedFairQueue K T) :
    (lookupFlow it.flow_key (enqueue it s).flows).map
        (fun fl => fl.last_virtual_finish_time) =
      some (newLastOf s it) := by
  simp only [enqueue]
  by_cases hro :
      s.queue_size.normal + it.data_size > s.max_normal_queue_size
  · rw [if_pos hro]
    rw [lookupFlow_updateFlow_self, lookupFlow_updateFlow_self,
      lookupFlow_flows0_self]
    rfl
  · rw [if_neg hro]
    rw [lookupFlow_updateFlow_self, lookupFlow_updateFlow_self,
      lookupFlow_flows0_self]
    rfl

/-- An enqueue for a previously-unseen key leaves the flow holding
exactly the new item's bytes (its FlowState was created with zero
buffered bytes). -/
theorem lookupFlow_enqueue_fresh (it : Item K T) (s : WeightedFairQueue K T)
    (hlk : lookupFlow it.flow_key s.flows = none) :
    (lookupFlow it.flow_key (enqueue it s).flows).map
        (fun fl => fl.queue_size.normal + fl.queue_size.overflow) =
      some it.data_size := by
  simp only [enqueue]
  by_cases hro :
      s.queue_size.normal + it.data_size > s.max_normal_queue_size
  · rw [if_pos hro]
    rw [lookupFlow_updateFlow_self, lookupFlow_updateFlow_self,
      lookupFlow_flows0_self, hlk]
    simp
  · rw [if_neg hro]
    rw [lookupFlow_updateFlow_self, lookupFlow_updateFlow_self,
      lookupFlow_flows0_self, hlk]
    simp

/-- The enqueued item is pushed (to exactly one of the two heaps) as a
heap entry carrying the item unchanged and the virtual finish time
newLastOf assigned at admission. -/
theorem enqueue_pushes (it : Item K T) (s : WeightedFairQueue K T) :
    ∃ hi : HeapItem K T, hi.inner = it ∧
      hi.virtual_finish_time = newLastOf s it ∧
      (((enqueue it s).items = hi :: s.items ∧
          (enqueue it s).overflow = s.overflow) ∨
        ((enqueue it s).overflow = hi :: s.overflow ∧
          (enqueue it s).items = s.items)) := by
  refine ⟨⟨it, s.seqno, newLastOf s it⟩, rfl, rfl, ?_⟩
  simp only [enqueue]
  by_cases hro :
      s.queue_size.normal + it.data_size > s.max_normal_queue_size
  · rw [if_pos hro]
    exact Or.inr ⟨rfl, rfl⟩
  · rw [if_neg hro]
    exact Or.inl ⟨rfl, rfl⟩

end StepLemmas


/-! Claim theorems. -/

section Claims

variable {K T : Type} [DecidableEq K] [DataSize T]

/-- C1: the spec's §8 concrete scenario (max_queue_size 100, flow A =
key 0 with weight 1 and a 60-byte item, flow B = key 1 with weight 3 and
a 60-byte item).  The two enqueues behave as the scenario describes (A's
item in the primary queue, B's in overflow), but the first dequeue does
not return A's item and promote B's: it panics at the promotion sweep's
expect("unreachable"), because the sweep looks up the dequeued flow A,
which was removed from the ledger the moment its primary bytes hit
zero. -/
theorem C1_scenario_first_dequeue_panics :
    (enqueue (itm 0 1 60)
        (WeightedFairQueue.new Nat (List Nat) 100)).queue_size =
      ⟨60, 0⟩ ∧
    (enqueue (itm 1 3 60) (enqueue (itm 0 1 60)
        (WeightedFairQueue.new Nat (List Nat) 100))).queue_size =
      ⟨60, 60⟩ ∧
    ((enqueue (itm 1 3 60) (enqueue (itm 0 1 60)
        (WeightedFairQueue.new Nat (List Nat) 100))).items.map
      (fun h => h.inner.flow_key)) = [0] ∧
    ((enqueue (itm 1 3 60) (enqueue (itm 0 1 60)
        (WeightedFairQueue.new Nat (List Nat) 100))).overflow.map
      (fun h => h.inner.flow_key)) = [1] ∧
    dequeueFull (enqueue (itm 1 3 60) (enqueue (itm 0 1 60)
        (WeightedFairQueue.new Nat (List Nat) 100))) =
      .error .flowMissingInSweep := by
  decide

/-- C2: after enqueueing two items of flow 0 (6 bytes to primary, 11
bytes to overflow, max 10), the dequeue completes and returns flow 0's
item, yet the ledger is left empty even though 11 bytes of flow 0 are
still buffered in overflow: removal tests only the primary byte counter,
not the combined bytes, contradicting the claim. -/
theorem C2_flow_with_overflow_bytes_dropped :
    (runOps [Op.enq (itm 0 1 6), Op.enq (itm 0 1 11), Op.deq]
        (WeightedFairQueue.new Nat (List Nat) 10)).toOption.map
        (fun p => (p.1.flows, p.1.queue_size.overflow,
          p.2.map (fun h => h.inner.flow_key))) =
      some ([], 11, [0]) := by
  decide

/-- C3: during the promotion sweep the byte accounting is applied to the
flow of the DEQUEUED item, not the promoted item's own flow: promoting
flow 1's 3-byte item while dequeueing flow 0's item underflows flow 0's
overflow counter (flow 0 has no overflow bytes), a panic in debug
profile, instead of moving the bytes on flow 1. -/
theorem C3_sweep_updates_dequeued_flow :
    runOps [Op.enq (itm 0 1 4), Op.enq (itm 0 1 4), Op.enq (itm 1 1 3),
        Op.deq] (WeightedFairQueue.new Nat (List Nat) 10) =
      .error .flowOverflowUnderflow := by
  decide

/-- C4: on every state reachable by completed enqueue/dequeue calls from
a fresh scheduler, both the primary byte counter and the total byte size
of the primary heap are at most max_queue_size. -/
theorem C4_primary_capacity (max : Nat) (s : WeightedFairQueue K T)
    (h : Reach max s) :
    s.queue_size.normal ≤ max ∧ sumSizes s.items ≤ max := by
  obtain ⟨a, b, c⟩ := reach_cap max s h
  constructor
  · omega
  · rw [← a]
    omega

theorem C4_primary_capacity_witness :
    (enqueue (itm 0 1 3)
        (WeightedFairQueue.new Nat (List Nat) 5)).queue_size.normal ≤ 5 ∧
      sumSizes (enqueue (itm 0 1 3)
        (WeightedFairQueue.new Nat (List Nat) 5)).items ≤ 5 :=
  C4_primary_capacity 5 _ (Reach.enq _ _ Reach.init)

/-- C5 counterexample: in a reachable trace (max 20), a dequeue returns
the virtual-finish-time-10 item of flow 0 and promotes flow 1's item
with the older virtual finish time 4; the next dequeue returns that
item: successive dequeues return virtual finish times 10 then 4, which
is not non-decreasing. -/
theorem C5_promoted_item_decreases_vft :
    (runOps [Op.enq (itm 0 1 10), Op.enq (itm 0 1 10), Op.enq (itm 1 2 2),
        Op.enq (itm 0 1 9), Op.deq, Op.enq (itm 1 1 6), Op.deq]
        (WeightedFairQueue.new Nat (List Nat) 20)).toOption.map
        (fun p => p.2.map (fun h => h.virtual_finish_time)) =
      some [10, 4] ∧
    ¬ List.Pairwise (fun a b => a ≤ b) [10, 4] := by
  decide

/-- C5 amended: along traces in which every enqueued item respects the
input contract (positive weight and size), is admitted directly into the
primary queue (the overflow buffer is never used), and whose pricing
does not wrap modulo 2^64, the virtual finish times returned by
successive dequeue calls are non-decreasing. -/
theorem C5_primary_only_nondecreasing (max : Nat)
    (s : WeightedFairQueue K T) (outs : List Nat)
    (h : ReachPrim max s outs) : outs.Pairwise (fun a b => a ≤ b) :=
  (reachPrim_inv max s outs h).2.1

theorem C5_primary_only_nondecreasing_witness :
    List.Pairwise (fun a b : Nat => a ≤ b) ([] ++ [5]) := by
  have h0 : ReachPrim 10 (WeightedFairQueue.new Nat (List Nat) 10) [] :=
    ReachPrim.init
  have h1 := ReachPrim.enq (itm 0 1 5) _ _ h0 (by decide) (by decide)
    (by decide) (by decide)
  have h2 := ReachPrim.deqSome _ _ (⟨itm 0 1 5, 0, 5⟩ : HeapItem Nat (List Nat))
    (⟨[], [], [], ⟨0, 0⟩, 10, 5, 1⟩ : WeightedFairQueue Nat (List Nat))
    h1 (by decide)
  exact C5_primary_only_nondecreasing 10 _ _ h2

/-- C6 counterexample: with weight 2^63, a 1-byte item prices flow 7's
last virtual finish time to 2^63; the next 3-byte item should, per the
claim, set it to 2^63 + 3 * 2^63 = 2^65, but the stored value is the
wrapped 0 (and has decreased). -/
theorem C6_wrap_breaks_exact_pricing :
    (lookupFlow 7 (enqueue (itm 7 (2 ^ 63) 1)
        (WeightedFairQueue.new Nat (List Nat) 1000)).flows).map
        (fun fl => fl.last_virtual_finish_time) = some (2 ^ 63) ∧
    (lookupFlow 7 (enqueue (itm 7 (2 ^ 63) 3) (enqueue (itm 7 (2 ^ 63) 1)
        (WeightedFairQueue.new Nat (List Nat) 1000))).flows).map
        (fun fl => fl.last_virtual_finish_time) = some 0 ∧
    (0 : Nat) ≠ 2 ^ 63 + 3 * 2 ^ 63 := by
  decide

/-- C6 amended: a previously-unseen flow key starts from the current
global virtual time with zero buffered bytes (so it holds exactly the
new item's bytes after the enqueue); every admitted item is assigned the
virtual finish time (previous last finish time + size * weight computed
in u64 arithmetic, i.e. modulo 2^64), the flow's last finish time is
updated to exactly that value, and it is non-decreasing whenever the
computation does not wrap. -/
theorem C6_pricing (s : WeightedFairQueue K T) (it : Item K T) :
    (lookupFlow it.flow_key (enqueue it s).flows).map
        (fun fl => fl.last_virtual_finish_time) =
      some ((prevLastOf s it.flow_key +
        (it.data_size * it.weight) % u64Size) % u64Size) ∧
    (lookupFlow it.flow_key s.flows = none →
      prevLastOf s it.flow_key = s.virtual_time ∧
      (lookupFlow it.flow_key (enqueue it s).flows).map
          (fun fl => fl.queue_size.normal + fl.queue_size.overflow) =
        some it.data_size) ∧
    (∃ hi : HeapItem K T, hi.inner = it ∧
      hi.virtual_finish_time = (prevLastOf s it.flow_key +
        (it.data_size * it.weight) % u64Size) % u64Size ∧
      (((enqueue it s).items = hi :: s.items ∧
          (enqueue it s).overflow = s.overflow) ∨
        ((enqueue it s).overflow = hi :: s.overflow ∧
          (enqueue it s).items = s.items))) ∧
    (prevLastOf s it.flow_key + it.data_size * it.weight < u64Size →
      prevLastOf s it.flow_key ≤ (prevLastOf s it.flow_key +
        (it.data_size * it.weight) % u64Size) % u64Size) := by
  refine ⟨lookupFlow_enqueue_self it s, ?_, enqueue_pushes it s, ?_⟩
  · intro hlk
    exact ⟨prevLastOf_none s _ hlk, lookupFlow_enqueue_fresh it s hlk⟩
  · intro hnw
    have h1 := newLastOf_no_wrap s it hnw
    unfold newLastOf at h1
    omega

theorem C6_pricing_witness :
    (prevLastOf (WeightedFairQueue.new Nat (List Nat) 50) 2 =
      (WeightedFairQueue.new Nat (List Nat) 50).virtual_time ∧
      (lookupFlow 2 (enqueue (itm 2 3 4)
          (WeightedFairQueue.new Nat (List Nat) 50)).flows).map
          (fun fl => fl.queue_size.normal + fl.queue_size.overflow) =
        some (itm 2 3 4).data_size) ∧
    prevLastOf (WeightedFairQueue.new Nat (List Nat) 50) 2 ≤
      (prevLastOf (WeightedFairQueue.new Nat (List Nat) 50) 2 +
        ((itm 2 3 4).data_size * (itm 2 3 4).weight) % u64Size) % u64Size :=
  ⟨(C6_pricing (WeightedFairQueue.new Nat (List Nat) 50)
      (itm 2 3 4)).2.1 (by decide),
    (C6_pricing (WeightedFairQueue.new Nat (List Nat) 50)
      (itm 2 3 4)).2.2.2 (by decide)⟩

/-- C7: dequeue returns nothing exactly when the primary queue is empty
at the time of the call, and in that case the whole state — the overflow
buffer included — is left unchanged (the overflow buffer is never
consulted for this decision). -/
theorem C7_dequeue_none_iff_primary_empty (s : WeightedFairQueue K T) :
    (dequeue s = .ok (none, s) ↔ s.items = []) ∧
    ∀ s2, dequeue s = .ok (none, s2) → s2 = s ∧ s.items = [] := by
  have hchar : ∀ s2, dequeue s = .ok (none, s2) → s2 = s ∧ s.items = [] := by
    intro s2 h
    unfold dequeue at h
    cases hd : dequeueFull s with
    | error e => rw [hd] at h; exact absurd h (by simp [Except.map])
    | ok p =>
        obtain ⟨o, s3⟩ := p
        rw [hd] at h
        simp only [Except.map, Except.ok.injEq, Prod.mk.injEq] at h
        obtain ⟨ho, rfl⟩ := h
        have ho' : o = none := by
          cases o with
          | none => rfl
          | some hi => simp at ho
        subst ho'
        obtain ⟨hnil, rfl⟩ := dequeueFull_ok_none s s3 hd
        exact ⟨rfl, hnil⟩
  refine ⟨⟨fun h => (hchar s h).2, fun h => ?_⟩, hchar⟩
  have := dequeueFull_of_items_nil s h
  unfold dequeue
  rw [this]
  rfl

theorem C7_dequeue_none_iff_primary_empty_witness :
    dequeue c7state = .ok (none, c7state) :=
  (C7_dequeue_none_iff_primary_empty c7state).1.mpr rfl

/-- C8: for every trace of completed calls from a fresh scheduler that
ends with both the primary queue and the overflow buffer empty, the
multiset of items returned by dequeue equals the multiset of items
accepted by enqueue (in this revision enqueue accepts every item). -/
theorem C8_conservation (max : Nat) (ops : List (Op K T))
    (sf : WeightedFairQueue K T) (outs : List (HeapItem K T))
    (h : runOps ops (WeightedFairQueue.new K T max) = .ok (sf, outs))
    (h1 : sf.items = []) (h2 : sf.overflow = []) :
    ((outs.map (fun hi => hi.inner) : List (Item K T)) :
        Multiset (Item K T)) =
      ((enqueuedOf ops : List (Item K T)) : Multiset (Item K T)) := by
  have hc := runOps_conserve ops _ _ _ h
  rw [show heapMS sf = 0 by simp [heapMS, h1, h2]] at hc
  rw [show heapMS (WeightedFairQueue.new K T max) = 0 by
    simp [heapMS, WeightedFairQueue.new]] at hc
  simpa using hc

theorem C8_conservation_witness :
    (([itm 0 1 2] : List (Item Nat (List Nat))) :
        Multiset (Item Nat (List Nat))) =
      (([itm 0 1 2] : List (Item Nat (List Nat))) :
        Multiset (Item Nat (List Nat))) := by
  have h := C8_conservation 10 [Op.enq (itm 0 1 2), Op.deq] _ _ rfl rfl rfl
  simpa using h

/-- C9 counterexample: enqueueing a 2-byte item with weight 2^63 on a
fresh scheduler completes normally (enqueue is total: no panic and no
rejection) and stores virtual finish time 0 — the wrapped value of
2 * 2^63 = 2^64 — both on the admitted heap entry and in the flow
ledger; nothing fails loudly. -/
theorem C9_silent_wrap :
    ((enqueue (itm 3 (2 ^ 63) 2)
        (WeightedFairQueue.new Nat (List Nat) 100)).items.map
      (fun h => h.virtual_finish_time)) = [0] ∧
    (lookupFlow 3 (enqueue (itm 3 (2 ^ 63) 2)
        (WeightedFairQueue.new Nat (List Nat) 100)).flows).map
        (fun fl => fl.last_virtual_finish_time) = some 0 ∧
    (0 : Nat) ≠ 2 * 2 ^ 63 := by
  decide

/-- C9 amended: the virtual-finish-time arithmetic at admission is
unchecked u64 arithmetic: the stored last finish time is exactly
(previous + size * weight) mod 2^64, always below 2^64; inputs whose
mathematical result exceeds the counter width store the wrapped value
and the operation completes normally. -/
theorem C9_mod_semantics (s : WeightedFairQueue K T) (it : Item K T) :
    (lookupFlow it.flow_key (enqueue it s).flows).map
        (fun fl => fl.last_virtual_finish_time) =
      some ((prevLastOf s it.flow_key +
        it.data_size * it.weight) % u64Size) ∧
    (prevLastOf s it.flow_key + it.data_size * it.weight) % u64Size <
      u64Size := by
  constructor
  · rw [lookupFlow_enqueue_self]
    congr 1
    unfold newLastOf u64Size
    omega
  · exact Nat.mod_lt _ (by unfold u64Size; positivity)

/-- C10: dequeue panics on a state reachable by three calls from a fresh
scheduler (max 10: enqueue 6 bytes for flow 0 to primary, 6 more bytes
for flow 0 to overflow, then dequeue): the dequeue removes flow 0 from
the ledger because its primary bytes hit zero, and the promotion sweep's
flow lookup — performed with the dequeued item's flow key — then fails
its expect("unreachable"). -/
theorem C10_dequeue_panics_on_reachable_state :
    runOps [Op.enq (itm 0 1 6), Op.enq (itm 0 1 6), Op.deq]
        (WeightedFairQueue.new Nat (List Nat) 10) =
      .error .flowMissingInSweep := by
  decide

end Claims

end Wfq
